/-
  Verification of `local_folium.py` (repository algol60/tmp_folium).

  Shallow embedding: the pure text-manipulation core of the script is
  translated to Lean functions over `String` / `List Char`; Python
  machine-level library routines (`str.rfind` + slicing, `str.replace`,
  `pathlib.Path(...).suffix`, `hashlib.sha1`, UTF-8 encoding, the two
  regexes) are embedded with their exact semantics.  File-system and
  network effects are modelled by explicit state passing (an association
  list of files, a download log, a read log) and a `fetch` oracle for
  network content; exceptions are modelled with `Except`.
-/
import Mathlib

set_option maxRecDepth 100000

namespace LocalFolium

/-! ## Python string primitives (over `List Char`) -/

/-- Python `str.isspace` restricted to the ASCII whitespace characters
(sufficient for source lines). -/
def pySpace (c : Char) : Bool :=
  c = ' ' || c = '\t' || c = '\n' || c = '\r' || c = '\x0b' || c = '\x0c'

/-- Python `s.strip()`. -/
def pyStripL (l : List Char) : List Char :=
  ((l.dropWhile pySpace).reverse.dropWhile pySpace).reverse

/-- Python `s.strip()` on `String`. -/
def pyStrip (s : String) : String := ⟨pyStripL s.data⟩

/-- Python `s.startswith(p)`. -/
def pyStartsWith (s p : String) : Bool := p.data.isPrefixOf s.data

/-- Python `s.endswith(p)`. -/
def pyEndsWith (s p : String) : Bool := p.data.isSuffixOf s.data

/-- Python `s.find(pat) >= 0` (substring occurrence test). -/
def hasSub (pat : List Char) : List Char → Bool
  | [] => pat.isPrefixOf []
  | c :: rest => pat.isPrefixOf (c :: rest) || hasSub pat rest

/-- Split a char list at the LAST occurrence of `ch`, returning the parts
before and after it.  `none` when `ch` does not occur.  This models the
Python idioms `s[:s.rfind(ch)]` (the `some` case gives the first
component) and `s[s.rindex(ch)+1:]` (second component). -/
def splitAtLast (ch : Char) : List Char → Option (List Char × List Char)
  | [] => none
  | c :: rest =>
    match splitAtLast ch rest with
    | some (a, b) => some (c :: a, b)
    | none => if c = ch then some ([], rest) else none

/-- Python `u[:u.rfind('/')]`: everything before the last `'/'`; when there
is no `'/'`, `rfind` returns `-1` and the slice `u[:-1]` drops the final
character. -/
def rstripSeg (l : List Char) : List Char :=
  match splitAtLast '/' l with
  | some (a, _) => a
  | none => l.dropLast

/-- The part of `l` after its last `'/'` (Python `u[u.rindex('/')+1:]`);
`none` models the `ValueError` raised by `rindex` when absent. -/
def afterLastSlash (l : List Char) : Option (List Char) :=
  (splitAtLast '/' l).map Prod.snd

/-- Python `s.replace(pat, rep)` (all non-overlapping occurrences, left to
right); only used with non-empty concrete patterns.  Structural recursion
on a fuel argument (each step consumes at least one character, so
`l.length` fuel always suffices); the fuel-exhausted case is unreachable. -/
def replaceCoreF (pat rep : List Char) : Nat → List Char → List Char
  | 0, l => l
  | _ + 1, [] => []
  | fuel + 1, c :: rest =>
    if pat ≠ [] ∧ pat.isPrefixOf (c :: rest) then
      rep ++ replaceCoreF pat rep fuel ((c :: rest).drop pat.length)
    else
      c :: replaceCoreF pat rep fuel rest

/-- Python `s.replace(pat, rep)` over char lists. -/
def replaceCore (pat rep l : List Char) : List Char := replaceCoreF pat rep l.length l

/-- Python `s.replace(pat, rep)` on `String`. -/
def pyReplace (s pat rep : String) : String := ⟨replaceCore pat.data rep.data s.data⟩

/-- ASCII lower-casing, for the case-insensitive `URL_RE`. -/
def lowerAscii (c : Char) : Char :=
  if 'A' ≤ c ∧ c ≤ 'Z' then Char.ofNat (c.toNat + 32) else c

/-! ## `pathlib.Path(u).suffix` (POSIX flavour, as used on URLs) -/

/-- Split a char list on every occurrence of `ch`. -/
def mySplit (ch : Char) : List Char → List (List Char)
  | [] => [[]]
  | c :: rest =>
    match mySplit ch rest with
    | [] => [[]]
    | g :: gs => if c = ch then [] :: g :: gs else (c :: g) :: gs

/-- `pathlib` path components: split on `'/'`, dropping empty and `"."`
components. -/
def pathComponents (l : List Char) : List (List Char) :=
  (mySplit '/' l).filter (fun c => c ≠ [] ∧ c ≠ ['.'])

/-- `Path(u).name`: the final path component (or `""`). -/
def pathName (l : List Char) : List Char := ((pathComponents l).getLast?).getD []

/-- `Path(u).suffix`: the extension of the final component; empty unless the
last `'.'` of the name is at an interior position. -/
def pySuffix (u : String) : String :=
  let name := pathName u.data
  match splitAtLast '.' name with
  | some (a, b) => if a ≠ [] ∧ b ≠ [] then ⟨'.' :: b⟩ else ""
  | none => ""

/-! ## `hashlib.sha1` over the UTF-8 encoding of the URL text -/

/-- UTF-8 encoding of a single character, as a list of byte values. -/
def utf8Char (c : Char) : List Nat :=
  let n := c.toNat
  if n < 0x80 then [n]
  else if n < 0x800 then [0xC0 + n / 64, 0x80 + n % 64]
  else if n < 0x10000 then [0xE0 + n / 4096, 0x80 + (n / 64) % 64, 0x80 + n % 64]
  else [0xF0 + n / 262144, 0x80 + (n / 4096) % 64, 0x80 + (n / 64) % 64, 0x80 + n % 64]

/-- `s.encode('UTF-8')` as a list of byte values. -/
def utf8Bytes (s : String) : List Nat := s.data.flatMap utf8Char

/-- 32-bit left rotation (words kept as `Nat` below `2^32`). -/
def rotl (n w : Nat) : Nat := ((w <<< n) + (w >>> (32 - n))) % 2 ^ 32

/-- Big-endian bytes of a value, fixed width. -/
def beBytes : Nat → Nat → List Nat
  | 0, _ => []
  | k + 1, v => beBytes k (v / 256) ++ [v % 256]

/-- SHA-1 message padding: `0x80`, zeros to 56 mod 64, 8-byte bit length. -/
def sha1Pad (msg : List Nat) : List Nat :=
  let len := msg.length
  let z := (64 + 56 - (len + 1) % 64) % 64
  msg ++ ([0x80] ++ List.replicate z 0 ++ beBytes 8 (len * 8))

/-- Split a byte list into 64-byte blocks (input length a multiple of 64);
fuelled structural recursion, `l.length` fuel always suffices. -/
def toBlocksF : Nat → List Nat → List (List Nat)
  | 0, _ => []
  | _ + 1, [] => []
  | fuel + 1, c :: rest => (c :: rest).take 64 :: toBlocksF fuel ((c :: rest).drop 64)

/-- Split a byte list into 64-byte blocks. -/
def toBlocks (l : List Nat) : List (List Nat) := toBlocksF l.length l

/-- Big-endian 32-bit word from 4 bytes. -/
def beWord (l : List Nat) : Nat := l.foldl (fun a b => a * 256 + b) 0

/-- The 16 message words of one 64-byte block (fuelled as above). -/
def blockWordsF : Nat → List Nat → List Nat
  | 0, _ => []
  | _ + 1, [] => []
  | fuel + 1, c :: rest => beWord ((c :: rest).take 4) :: blockWordsF fuel ((c :: rest).drop 4)

/-- The 16 message words of one 64-byte block. -/
def blockWords (l : List Nat) : List Nat := blockWordsF l.length l

/-- Extend the 16 message words to 80. -/
def sha1Extend (w : List Nat) : List Nat :=
  (List.range 64).foldl
    (fun acc _ =>
      let n := acc.length
      acc ++ [rotl 1 (acc.getD (n - 3) 0 ^^^ acc.getD (n - 8) 0 ^^^
                      acc.getD (n - 14) 0 ^^^ acc.getD (n - 16) 0)])
    w

/-- SHA-1 working state. -/
abbrev Sha1St := Nat × Nat × Nat × Nat × Nat

/-- One SHA-1 round. -/
def sha1Round (st : Sha1St) (i wi : Nat) : Sha1St :=
  let (a, b, c, d, e) := st
  let f :=
    if i < 20 then (b &&& c) ||| ((b ^^^ 0xFFFFFFFF) &&& d)
    else if i < 40 then b ^^^ c ^^^ d
    else if i < 60 then (b &&& c) ||| (b &&& d) ||| (c &&& d)
    else b ^^^ c ^^^ d
  let k :=
    if i < 20 then 0x5A827999
    else if i < 40 then 0x6ED9EBA1
    else if i < 60 then 0x8F1BBCDC
    else 0xCA62C1D6
  let temp := (rotl 5 a + f + e + k + wi) % 2 ^ 32
  (temp, a, rotl 30 b, c, d)

/-- Process one 64-byte block. -/
def sha1Block (h : Sha1St) (block : List Nat) : Sha1St :=
  let w := sha1Extend (blockWords block)
  let st := w.enum.foldl (fun st p => sha1Round st p.1 p.2) h
  ((h.1 + st.1) % 2 ^ 32, (h.2.1 + st.2.1) % 2 ^ 32, (h.2.2.1 + st.2.2.1) % 2 ^ 32,
   (h.2.2.2.1 + st.2.2.2.1) % 2 ^ 32, (h.2.2.2.2 + st.2.2.2.2) % 2 ^ 32)

/-- SHA-1 state after hashing a byte list. -/
def sha1Nat (msg : List Nat) : Sha1St :=
  (toBlocks (sha1Pad msg)).foldl sha1Block
    (0x67452301, 0xEFCDAB89, 0x98BADCFE, 0x10325476, 0xC3D2E1F0)

/-- Big-endian bytes of one 32-bit word. -/
def wordBytes (w : Nat) : List Nat :=
  [w / 2 ^ 24 % 256, w / 2 ^ 16 % 256, w / 2 ^ 8 % 256, w % 256]

/-- The 20 digest bytes. -/
def sha1Digest (msg : List Nat) : List Nat :=
  let (a, b, c, d, e) := sha1Nat msg
  wordBytes a ++ wordBytes b ++ wordBytes c ++ wordBytes d ++ wordBytes e

/-- Lowercase hex digit. -/
def hexDigit (n : Nat) : Char :=
  if n < 10 then Char.ofNat (48 + n) else Char.ofNat (87 + n)

/-- `sha1(s.encode('UTF-8')).hexdigest()`. -/
def sha1_hex (s : String) : String :=
  ⟨(sha1Digest (utf8Bytes s)).flatMap fun b => [hexDigit (b / 16), hexDigit (b % 16)]⟩

/-! ## The script's own definitions -/

/-- `PLACEHOLDER` (line 60 of the source). -/
def PLACEHOLDER : String := "__mystery://placeholder__"

/-- `url_relative`'s `while` loop (lines 77–80): while `r` starts with
`"../"`, strip one trailing segment from `u` and drop the `"../"`.
Fuelled structural recursion; every iteration removes three characters
from `r`, so `r.length` fuel always suffices. -/
def url_rel_loopF : Nat → List Char → List Char → List Char × List Char
  | 0, u, r => (u, r)
  | fuel + 1, u, r =>
    if ('.' :: '.' :: '/' :: []).isPrefixOf r then url_rel_loopF fuel (rstripSeg u) (r.drop 3)
    else (u, r)

/-- `url_relative(u, r)` (lines 71–82). -/
def url_relative (u r : String) : String :=
  let p := url_rel_loopF r.data.length (rstripSeg u.data) r.data
  ⟨p.1 ++ '/' :: p.2⟩

/-- The four well-known asset names of lines 102–107. -/
def wellKnown : List String :=
  ["leaflet.css", "marker-icon.png", "marker-icon-2x.png", "marker-shadow.png"]

/-- The `u.endswith((...))` test of line 102: a SUFFIX test on the whole
URL text, not a test on the final path segment. -/
def endsWellKnown (u : String) : Bool := wellKnown.any (fun w => pyEndsWith u w)

/-- Protocol-relative normalization of lines 90–93. -/
def pyNormalize (u : String) : String :=
  if pyStartsWith u "//" then "https:" ++ u else u

/-- `url_to_name(u)` (lines 84–117).  `Except.error` models the raised
`ValueError`s.  Note two faithfully kept quirks of the source:
the well-known test is `endswith` on the whole URL (line 102), and in
`if (ix:=suffix.find('#')>=0): suffix = suffix[:ix]` (lines 114–115) the
walrus binds `ix` to the BOOLEAN `find('#') >= 0`, so when the suffix
contains `'#'` the slice is `suffix[:True]`, i.e. `suffix[:1]`. -/
def url_to_name (u : String) : Except String String :=
  let u := pyNormalize u
  if pyStartsWith u "https://" = false then .error "ValueError: not https"
  else if endsWellKnown u then
    match afterLastSlash u.data with
    | some b => .ok ⟨b⟩
    | none => .error "ValueError: substring not found"
  else
    let name := sha1_hex u
    let suffix := pySuffix u
    let suffix := if suffix.data.contains '#' then ⟨suffix.data.take 1⟩ else suffix
    .ok (name ++ suffix)

/-! ## `URL_RE` (line 65): `['"](https://[^'"]+)['"]`, case-insensitive -/

/-- Quote characters of the regex class `['"]`. -/
def isQuote (c : Char) : Bool := c = '\'' || c = '"'

/-- Case-insensitive match of `"https://"` as a prefix. -/
def httpsCI (l : List Char) : Bool :=
  (l.take 8).map lowerAscii = "https://".data

/-- `URL_RE.search(line)`: leftmost match, returning `m.span()`, i.e. the
half-open span of the whole match including both quotes.  At a candidate
position the greedy `[^'"]+` takes the maximal run of non-quote characters
after the scheme; the match succeeds iff that run is non-empty and a quote
follows it. -/
def url_search : List Char → Nat → Option (Nat × Nat)
  | [], _ => none
  | c :: rest, off =>
    (if isQuote c ∧ httpsCI rest then
      match (rest.drop 8).findIdx? isQuote with
      | some j => if 0 < j then some (off, off + 10 + j) else none
      | none => none
    else none).orElse fun _ => url_search rest (off + 1)

/-- `URL_RE.search` on a `String`. -/
def url_re_search (line : String) : Option (Nat × Nat) := url_search line.data 0

/-- Python slice `l[b:e]` for `0 ≤ b ≤ e` (the only uses here). -/
def pySlice (l : List Char) (b e : Nat) : List Char := (l.take e).drop b

/-- The URL Mapping `self.url_map`: a Python dict embedded as an
insertion-ordered association list; assignment updates in place when the
key is present and appends otherwise (CPython dict semantics). -/
abbrev Dict := List (String × String)

/-- `d[k] = v`. -/
def dictInsert (m : Dict) (k v : String) : Dict :=
  if m.any (fun p => p.1 == k) then m.map (fun p => if p.1 == k then (k, v) else p)
  else m ++ [(k, v)]

/-- `k in d`. -/
def dictMem (m : Dict) (k : String) : Bool := m.any (fun p => p.1 == k)

/-- `UrlModifier.local_https(line)` (lines 125–156): rewrite the first
quoted `https://` URL of the line to the placeholder form and record
`old_u → name` in the map.  Returns the updated map and line;
`Except.error` propagates the `ValueError` of `url_to_name`. -/
def local_https (m : Dict) (line : String) : Except String (Dict × String) :=
  match url_re_search line with
  | none => .ok (m, line)
  | some (b, e) =>
    if pyStartsWith (pyStrip line) ">>>" || pyStartsWith (pyStrip line) "..." then
      .ok (m, line)
    else
      match url_to_name ⟨pySlice line.data (b + 1) (e - 1)⟩ with
      | .error err => .error err
      | .ok name =>
        .ok (dictInsert m ⟨pySlice line.data (b + 1) (e - 1)⟩ name,
          ⟨pySlice line.data 0 (b + 1) ++ (PLACEHOLDER ++ "/" ++ name).data ++
            line.data.drop (e - 1)⟩)

/-- The per-file body of `process_py` (lines 164–166): map `local_https`
over the lines, threading the URL map. -/
def scan_lines (m : Dict) : List String → Except String (Dict × List String)
  | [] => .ok (m, [])
  | l :: ls =>
    match local_https m l with
    | .error e => .error e
    | .ok (m', l') => (scan_lines m' ls).map fun p => (p.1, l' :: p.2)

/-- One file of `process_py` (lines 163–170).  The `Bool` is whether the
file is rewritten, i.e. `upd_lines != old_lines`. -/
def process_py_file (m : Dict) (lines : List String) :
    Except String (Dict × List String × Bool) :=
  (scan_lines m lines).map fun p => (p.1, p.2, p.2 != lines)

/-! ## `CSS_RE` (line 69): `url\(([^)]+)\)` -/

/-- `CSS_RE.finditer(text)`: the group-1 spans of all non-overlapping
matches, left to right.  A match needs `url(`, a non-empty run of
non-`')'` characters, then `')'`. -/
def css_scanF : Nat → List Char → Nat → List (Nat × Nat)
  | 0, _, _ => []
  | _ + 1, [], _ => []
  | fuel + 1, c :: rest, off =>
    if ('u' :: 'r' :: 'l' :: '(' :: []).isPrefixOf (c :: rest) then
      match ((c :: rest).drop 4).findIdx? (fun d => d = ')') with
      | some j =>
        if 0 < j then
          (off + 4, off + 4 + j) :: css_scanF fuel ((c :: rest).drop (4 + j + 1)) (off + 4 + j + 1)
        else css_scanF fuel rest (off + 1)
      | none => css_scanF fuel rest (off + 1)
    else css_scanF fuel rest (off + 1)

/-- All `CSS_RE` group spans of a text (every step of the scan consumes at
least one character, so `length` fuel always suffices). -/
def css_finditer (text : String) : List (Nat × Nat) := css_scanF text.data.length text.data 0

/-- `d.get(k)` on the association-list dict. -/
def dictFind (m : Dict) (k : String) : Option String :=
  (m.find? (fun p => p.1 == k)).map Prod.snd

/-- State threaded through `download_from_css`: the URL map, the Python
local `name2` (`none` while still unbound), the log of `download_file`
calls, the local directory contents, and the log of CSS files read. -/
structure CssSt where
  url_map : Dict
  name2 : Option String
  downloads : List (String × String)
  files : Dict
  reads : List String
deriving DecidableEq

/-- `download_file(u, local_dir, name)` (lines 245–249): fetch the URL's
content and write it to `local_dir/name`. -/
def download_file (fetch : String → String) (st : CssSt) (u name : String) : CssSt :=
  { st with
    downloads := st.downloads ++ [(u, name)]
    files := dictInsert st.files name (fetch u) }

/-- Splice `PLACEHOLDER/name` over the span `[b, e)` of `text`
(line 221: `text = f'{text[:b]}{PLACEHOLDER}/{name2}{text[e:]}'`). -/
def spliceSpan (text : String) (b e : Nat) (name : String) : String :=
  ⟨pySlice text.data 0 b ++ (PLACEHOLDER ++ "/" ++ name).data ++ text.data.drop e⟩

/-- Lines 186–195 of one `url()` match: the (possibly quote-narrowed) span
`b, e` and the reference text, after stripping one layer of quotes when
the content starts with one (lines 188–190) and keeping only the part
before the first `'?'` — `if (ix:=u2.find('?'))>=0: u2 = u2[:ix]`
(lines 192–195). -/
def css_target (text : String) (sp : Nat × Nat) : Nat × Nat × List Char :=
  let b := sp.1
  let e := sp.2
  let u0 := pySlice text.data b e
  let bq := match u0 with
    | c :: _ => if isQuote c then (b + 1, e - 1, pySlice text.data (b + 1) (e - 1))
                else (b, e, u0)
    | [] => (b, e, u0)
  (bq.1, bq.2.1, bq.2.2.takeWhile (fun c => c ≠ '?'))

/-- Lines 207–219: map/download bookkeeping for a resolved URL `u2s`, and
the name spliced into the text.  Faithfully kept source behaviour: when
the resolved URL is already in the map, the name used for the rewrite is
the stale Python local `name2` from an earlier match (`NameError` when no
earlier match bound it); when it is new, the file is downloaded, the map
is extended, and — if the name is the primary marker icon — the two
sibling marker icons are eagerly downloaded and registered as well
(lines 212–219). -/
def css_action (fetch : String → String) (st : CssSt) (u2s : String) :
    Except String (CssSt × String) :=
  if dictMem st.url_map u2s then
    match st.name2 with
    | none => .error "NameError: name 'name2' is not defined"
    | some n2 => .ok (st, n2)
  else
    match url_to_name u2s with
    | .error err => .error err
    | .ok name2 =>
      let st := download_file fetch st u2s name2
      let st := { st with url_map := dictInsert st.url_map u2s name2, name2 := some name2 }
      let st :=
        if name2 == "marker-icon.png" then
          (["marker-icon-2x.png", "marker-shadow.png"]).foldl
            (fun st also =>
              let also_u := pyReplace u2s "marker-icon.png" also
              let st := download_file fetch st also_u also
              { st with url_map := dictInsert st.url_map also_u also })
            st
        else st
      .ok (st, name2)

/-- Line 197: skip inline data / fragment-only / percent-prefixed refs. -/
def css_skip (u2 : List Char) : Bool :=
  ('d' :: 'a' :: 't' :: 'a' :: ':' :: []).isPrefixOf u2 ||
    ('#' :: []).isPrefixOf u2 || ('%' :: []).isPrefixOf u2

/-- Lines 202–205: protocol-relative refs get `https:` prepended, all
others are resolved against the CSS file's own source URL. -/
def css_resolve (old_u : String) (u2 : List Char) : String :=
  if ('/' :: '/' :: []).isPrefixOf u2 then "https:" ++ ⟨u2⟩
  else url_relative old_u ⟨u2⟩

/-- One `url()` match of `download_from_css` (lines 184–226).  Returns the
updated state, text and `matched` flag. -/
def css_step (fetch : String → String) (old_u : String) (st : CssSt) (text : String)
    (matched : Bool) (sp : Nat × Nat) : Except String (CssSt × String × Bool) :=
  if css_skip (css_target text sp).2.2 then
    .ok (st, text, matched)
  else
    (css_action fetch st (css_resolve old_u (css_target text sp).2.2)).map
      fun p => (p.1, spliceSpan text (css_target text sp).1 (css_target text sp).2.1 p.2, true)

/-- The reversed-match loop of lines 184–226. -/
def css_matches (fetch : String → String) (old_u : String) :
    List (Nat × Nat) → CssSt → String → Bool → Except String (CssSt × String × Bool)
  | [], st, text, matched => .ok (st, text, matched)
  | sp :: sps, st, text, matched =>
    match css_step fetch old_u st text matched sp with
    | .error e => .error e
    | .ok (st', text', matched') => css_matches fetch old_u sps st' text' matched'

/-- One snapshot entry of `download_from_css` (lines 176–230): entries whose
name ends in `.css` have their file read, every `url()` match processed in
reverse order, and the file rewritten when any match was rewritten. -/
def css_file (fetch : String → String) (old_u name : String) (st : CssSt) :
    Except String CssSt :=
  if pyEndsWith name ".css" then
    match dictFind st.files name with
    | none => .error "FileNotFoundError"
    | some text =>
      match css_matches fetch old_u ((css_finditer text).reverse)
          { st with reads := st.reads ++ [name] } text false with
      | .error e => .error e
      | .ok (st', text', matched) =>
        .ok (if matched then { st' with files := dictInsert st'.files name text' } else st')
  else .ok st

/-- Iteration over the snapshot list. -/
def dfc_go (fetch : String → String) : Dict → CssSt → Except String CssSt
  | [], st => .ok st
  | (old_u, name) :: rest, st =>
    match css_file fetch old_u name st with
    | .error e => .error e
    | .ok st' => dfc_go fetch rest st'

/-- `UrlModifier.download_from_css(local_dir)` (lines 172–232).  The loop
header `for old_u, name in dict(self.url_map).items()` iterates over a
snapshot COPY of the map taken when the call starts. -/
def download_from_css (fetch : String → String) (st : CssSt) : Except String CssSt :=
  dfc_go fetch st.url_map st

/-- The inner `replace` of `_replace` applied to one file (lines 273–281):
rewrite (and re-write to disk) exactly when the placeholder occurs. -/
def replace_file ( url_prefix buf : String) : String × Bool :=
  if hasSub PLACEHOLDER.data buf.data then
    (pyReplace buf (PLACEHOLDER ++ "/") url_prefix, true)
  else (buf, false)

/-! ## Lemmas about the string primitives -/

theorem strData_append (a b : String) : (a ++ b).data = a.data ++ b.data := by
  cases a; cases b; rfl

theorem splitAtLast_eq_none_iff {ch : Char} {l : List Char} :
    splitAtLast ch l = none ↔ ch ∉ l := by
  induction l with
  | nil => simp [splitAtLast]
  | cons c rest ih =>
    simp only [splitAtLast]
    cases h : splitAtLast ch rest with
    | some p =>
      obtain ⟨p₁, p₂⟩ := p
      have hmem : ch ∈ rest := by
        by_contra hm
        rw [ih.mpr hm] at h
        exact Option.noConfusion h
      simp [hmem]
    | none =>
      have hrest : ch ∉ rest := ih.mp h
      by_cases hc : c = ch
      · subst hc; simp
      · simp [hc, hrest, Ne.symm hc]

theorem splitAtLast_isSome {ch : Char} {l : List Char} (h : ch ∈ l) :
    (splitAtLast ch l).isSome = true := by
  cases hs : splitAtLast ch l with
  | some p => rfl
  | none => exact absurd (splitAtLast_eq_none_iff.mp hs) (by simp [h])

theorem splitAtLast_eq_some {ch : Char} {l a b : List Char}
    (h : splitAtLast ch l = some (a, b)) : l = a ++ ch :: b ∧ ch ∉ b := by
  induction l generalizing a b with
  | nil => simp [splitAtLast] at h
  | cons c rest ih =>
    simp only [splitAtLast] at h
    cases hs : splitAtLast ch rest with
    | some p =>
      obtain ⟨p₁, p₂⟩ := p
      rw [hs] at h
      simp only [Option.some.injEq, Prod.mk.injEq] at h
      obtain ⟨ha, hb⟩ := h
      obtain ⟨hrest, hnb⟩ := ih hs
      subst ha hb
      exact ⟨by simp [hrest], hnb⟩
    | none =>
      rw [hs] at h
      by_cases hc : c = ch
      · rw [if_pos hc] at h
        simp only [Option.some.injEq, Prod.mk.injEq] at h
        obtain ⟨ha, hb⟩ := h
        subst ha hb
        exact ⟨by simp [hc], splitAtLast_eq_none_iff.mp hs⟩
      · simp [hc] at h

theorem splitAtLast_append {ch : Char} {b : List Char} (hb : ch ∉ b) (a : List Char) :
    splitAtLast ch (a ++ ch :: b) = some (a, b) := by
  induction a with
  | nil => simp [splitAtLast, splitAtLast_eq_none_iff.mpr hb]
  | cons c a' ih => simp [splitAtLast, ih]

theorem afterLastSlash_append {a b : List Char} (hb : '/' ∉ b) :
    afterLastSlash (a ++ '/' :: b) = some b := by
  simp [afterLastSlash, splitAtLast_append hb]

theorem afterLastSlash_isSome {l : List Char} (h : '/' ∈ l) :
    (afterLastSlash l).isSome = true := by
  simpa [afterLastSlash] using splitAtLast_isSome h

theorem rstripSeg_append {a b : List Char} (hb : '/' ∉ b) :
    rstripSeg (a ++ '/' :: b) = a := by
  simp [rstripSeg, splitAtLast_append hb]

/-- A string starting with `https://` contains a `'/'`. -/
theorem startsHttps_mem_slash {u : String} (h : pyStartsWith u "https://" = true) :
    '/' ∈ u.data := by
  unfold pyStartsWith at h
  obtain ⟨t, ht⟩ := List.isPrefixOf_iff_prefix.mp h
  rw [← ht]
  simp [String.data]

/-! ## C9: the scheme check of `url_to_name` -/

/-- C9.  `url_to_name` first normalizes a protocol-relative `//…` input to
`https://…`, and then errors if and only if the normalized URL does not
start with `https://`; every input of the form `https://…` or `//…`
passes the check without error. -/
theorem url_to_name_error_iff :
    (∀ u : String, (url_to_name u).isOk = false ↔
      pyStartsWith (pyNormalize u) "https://" = false) ∧
    (∀ t : String, (url_to_name ("https://" ++ t)).isOk = true ∧
      (url_to_name ("//" ++ t)).isOk = true) := by
  have main : ∀ u : String, (url_to_name u).isOk = false ↔
      pyStartsWith (pyNormalize u) "https://" = false := by
    intro u
    unfold url_to_name
    cases hs : pyStartsWith (pyNormalize u) "https://" with
    | false => simp [hs, Except.isOk, Except.toBool]
    | true =>
      have hmem : '/' ∈ (pyNormalize u).data := startsHttps_mem_slash hs
      by_cases hw : endsWellKnown (pyNormalize u) = true
      · obtain ⟨p, hp⟩ := Option.isSome_iff_exists.mp (splitAtLast_isSome hmem)
        obtain ⟨p₁, p₂⟩ := p
        simp [hs, hw, afterLastSlash, hp, Except.isOk, Except.toBool]
      · simp [hs, hw, Except.isOk, Except.toBool]
  have hstartsOk : ∀ v : String,
      pyStartsWith (pyNormalize v) "https://" = true → (url_to_name v).isOk = true := by
    intro v hv
    cases hok : (url_to_name v).isOk with
    | true => rfl
    | false => have := (main v).mp hok; simp [this] at hv
  refine ⟨main, fun t => ⟨?_, ?_⟩⟩
  · apply hstartsOk
    have h1 : pyStartsWith ("https://" ++ t) "//" = false := by
      unfold pyStartsWith; rw [strData_append]; rfl
    have hnorm : pyNormalize ("https://" ++ t) = "https://" ++ t := by
      simp [pyNormalize, h1]
    rw [hnorm]
    unfold pyStartsWith; rw [strData_append]
    exact List.isPrefixOf_iff_prefix.mpr (List.prefix_append _ _)
  · apply hstartsOk
    have h2 : pyStartsWith ("//" ++ t) "//" = true := by
      unfold pyStartsWith; rw [strData_append]
      exact List.isPrefixOf_iff_prefix.mpr (List.prefix_append _ _)
    have hnorm2 : pyNormalize ("//" ++ t) = "https:" ++ ("//" ++ t) := by
      simp [pyNormalize, h2]
    have hcat : ("https:" ++ ("//" ++ t)) = "https://" ++ t := by
      apply String.ext
      simp only [strData_append]
      rw [← List.append_assoc]
      rfl
    rw [hnorm2, hcat]
    unfold pyStartsWith; rw [strData_append]
    exact List.isPrefixOf_iff_prefix.mpr (List.prefix_append _ _)

/-! ## Branch characterizations of `url_to_name` (for C2/C3) -/

/-- The suffix that `url_to_name` actually appends in its hash branch: the
`Path(u).suffix`, truncated to its FIRST character whenever it contains a
`'#'` anywhere — the net effect of `if (ix:=suffix.find('#')>=0):
suffix = suffix[:ix]`, whose walrus binds `ix` to the boolean
`find('#') >= 0`, making the slice `suffix[:True] = suffix[:1]`. -/
def hashSuffix (v : String) : String :=
  if (pySuffix v).data.contains '#' then ⟨(pySuffix v).data.take 1⟩ else pySuffix v

theorem url_to_name_wellKnown_branch {u : String}
    (hs : pyStartsWith (pyNormalize u) "https://" = true)
    (hw : endsWellKnown (pyNormalize u) = true) :
    url_to_name u = .ok ⟨(afterLastSlash (pyNormalize u).data).getD []⟩ := by
  have hmem : '/' ∈ (pyNormalize u).data := startsHttps_mem_slash hs
  obtain ⟨p, hp⟩ := Option.isSome_iff_exists.mp (splitAtLast_isSome hmem)
  obtain ⟨p₁, p₂⟩ := p
  unfold url_to_name
  simp [hs, hw, afterLastSlash, hp]

theorem url_to_name_hash_branch {u : String}
    (hs : pyStartsWith (pyNormalize u) "https://" = true)
    (hw : endsWellKnown (pyNormalize u) = false) :
    url_to_name u = .ok (sha1_hex (pyNormalize u) ++ hashSuffix (pyNormalize u)) := by
  unfold url_to_name hashSuffix
  simp [hs, hw]

/-- C2 (amended).  For a URL in the hash branch, `url_to_name` returns the
SHA-1 hex digest of the UTF-8-encoded (normalized) URL text followed by
the URL's file suffix, where the suffix is truncated to its first
character `'.'` (not at the `'#'` position) whenever it contains a `'#'`;
in particular `url_to_name ("https://cdn.example/leaflet.css?v=2#frag")`
yields the 40 hex digits followed by a bare `"."`. -/
theorem url_to_name_hash_spec :
    (∀ u : String, pyStartsWith (pyNormalize u) "https://" = true →
        endsWellKnown (pyNormalize u) = false →
        url_to_name u = .ok (sha1_hex (pyNormalize u) ++ hashSuffix (pyNormalize u))) ∧
    (url_to_name "https://cdn.example/leaflet.css?v=2#frag").toOption =
      some "dd1b3976c2fcfdf603098777cf40ae67a1174750." :=
  ⟨fun _ hs hw => url_to_name_hash_branch hs hw, by decide⟩

/-- C2, claim as stated, refuted: on the spec's own example the resulting
name does NOT end in `".css"` (the whole `".css?v=2#frag"` suffix
collapses to `"."`). -/
theorem url_to_name_fragment_counterexample :
    (url_to_name "https://cdn.example/leaflet.css?v=2#frag").toOption.map
      (fun n => pyEndsWith n ".css") = some false := by decide

/-- C2 witness: the amended hash-branch rule evaluated on the spec's
example URL. -/
theorem url_to_name_hash_spec_witness :
    url_to_name "https://cdn.example/leaflet.css?v=2#frag" =
      .ok (sha1_hex "https://cdn.example/leaflet.css?v=2#frag" ++ ".") :=
  url_to_name_hash_spec.1 "https://cdn.example/leaflet.css?v=2#frag" (by decide) (by decide)

/-- C3 (amended).  `url_to_name` returns the URL's basename unchanged
(no hashing) exactly when the normalized URL text ENDS WITH one of the
four well-known names — an `endswith` test on the whole URL, not a test
of the final path segment — and hashes every other valid URL; the
positive well-known example of the claim does hold. -/
theorem url_to_name_wellknown_spec :
    (∀ u : String, pyStartsWith (pyNormalize u) "https://" = true →
        (endsWellKnown (pyNormalize u) = true →
          url_to_name u = .ok ⟨(afterLastSlash (pyNormalize u).data).getD []⟩) ∧
        (endsWellKnown (pyNormalize u) = false →
          url_to_name u = .ok (sha1_hex (pyNormalize u) ++ hashSuffix (pyNormalize u)))) ∧
    url_to_name "https://x/marker-icon.png" = .ok "marker-icon.png" := by
  refine ⟨fun u hs => ⟨fun hw => url_to_name_wellKnown_branch hs hw,
    fun hw => url_to_name_hash_branch hs hw⟩, ?_⟩
  have h := url_to_name_wellKnown_branch (u := "https://x/marker-icon.png")
    (by decide) (by decide)
  simpa using h

/-- C3, claim as stated, refuted: `"https://x/xleaflet.css"` has final path
segment `"xleaflet.css"`, which is none of the four well-known names, yet
`url_to_name` returns that basename unchanged — no hash-derived name —
because the code tests `u.endswith('leaflet.css')` on the whole URL. -/
theorem url_to_name_wellknown_counterexample :
    (url_to_name "https://x/xleaflet.css").toOption = some "xleaflet.css" ∧
    afterLastSlash "https://x/xleaflet.css".data = some "xleaflet.css".data ∧
    wellKnown.contains "xleaflet.css" = false ∧
    (url_to_name "https://x/xleaflet.css").toOption ≠
      some (sha1_hex "https://x/xleaflet.css" ++ hashSuffix "https://x/xleaflet.css") := by
  refine ⟨by decide, by decide, by decide, by decide⟩

/-- C3 witness: the amended well-known rule evaluated on the URL whose
basename merely ENDS IN `leaflet.css`. -/
theorem url_to_name_wellknown_spec_witness :
    url_to_name "https://x/xleaflet.css" = .ok "xleaflet.css" :=
  (url_to_name_wellknown_spec.1 "https://x/xleaflet.css" (by decide)).1 (by decide)

/-! ## C5: `url_relative` in terms of path segments -/

/-- Join segments with `'/'` (left inverse of `mySplit '/'`). -/
def joinSegs : List (List Char) → List Char
  | [] => []
  | [s] => s
  | s :: s' :: ss => s ++ '/' :: joinSegs (s' :: ss)

/-- Number of leading `"../"` groups of a reference. -/
def leadingUps : List Char → Nat
  | '.' :: '.' :: '/' :: t => leadingUps t + 1
  | _ => 0

/-- The reference with its leading `"../"` groups removed. -/
def stripUps : List Char → List Char
  | '.' :: '.' :: '/' :: t => stripUps t
  | r => r

theorem leadingUps_nomatch {r : List Char}
    (h : ('.' :: '.' :: '/' :: []).isPrefixOf r = false) : leadingUps r = 0 := by
  rw [leadingUps.eq_def]
  split
  · rename_i t; simp [List.isPrefixOf] at h
  · rfl

theorem stripUps_nomatch {r : List Char}
    (h : ('.' :: '.' :: '/' :: []).isPrefixOf r = false) : stripUps r = r := by
  rw [stripUps.eq_def]
  split
  · rename_i t; simp [List.isPrefixOf] at h
  · rfl

theorem mySplit_ne_nil (ch : Char) (l : List Char) : mySplit ch l ≠ [] := by
  cases l with
  | nil => simp [mySplit]
  | cons c rest =>
    simp only [mySplit]
    cases mySplit ch rest with
    | nil => simp
    | cons g gs => by_cases hc : c = ch <;> simp [hc]

theorem joinSegs_mySplit (l : List Char) : joinSegs (mySplit '/' l) = l := by
  induction l with
  | nil => rfl
  | cons c rest ih =>
    obtain ⟨g, gs, hsplit⟩ : ∃ g gs, mySplit '/' rest = g :: gs := by
      cases h : mySplit '/' rest with
      | nil => exact absurd h (mySplit_ne_nil '/' rest)
      | cons g gs => exact ⟨g, gs, rfl⟩
    rw [hsplit] at ih
    by_cases hc : c = '/'
    · simp only [mySplit, hsplit, if_pos hc, joinSegs]
      rw [ih, hc]
      rfl
    · simp only [mySplit, hsplit, if_neg hc]
      cases gs with
      | nil =>
        simp only [joinSegs] at ih ⊢
        rw [ih]
      | cons g' gs' =>
        simp only [joinSegs] at ih ⊢
        rw [List.cons_append, ih]

theorem mySplit_noslash {l s : List Char} (hs : s ∈ mySplit '/' l) : '/' ∉ s := by
  induction l generalizing s with
  | nil => simp only [mySplit, List.mem_singleton] at hs; simp [hs]
  | cons c rest ih =>
    obtain ⟨g, gs, hsplit⟩ : ∃ g gs, mySplit '/' rest = g :: gs := by
      cases h : mySplit '/' rest with
      | nil => exact absurd h (mySplit_ne_nil '/' rest)
      | cons g gs => exact ⟨g, gs, rfl⟩
    by_cases hc : c = '/'
    · simp only [mySplit, hsplit, if_pos hc, List.mem_cons] at hs
      rcases hs with rfl | hs
      · simp
      · exact ih (by rw [hsplit]; exact List.mem_cons.mpr hs)
    · simp only [mySplit, hsplit, if_neg hc, List.mem_cons] at hs
      rcases hs with rfl | hs
      · have hg : '/' ∉ g := ih (by rw [hsplit]; exact List.mem_cons_self g gs)
        simp only [List.mem_cons]
        rintro (rfl | hmem)
        · exact hc rfl
        · exact hg hmem
      · exact ih (by rw [hsplit]; exact List.mem_cons_of_mem g hs)

theorem joinSegs_concat {init : List (List Char)} (hne : init ≠ []) (last : List Char) :
    joinSegs (init ++ [last]) = joinSegs init ++ '/' :: last := by
  induction init with
  | nil => exact absurd rfl hne
  | cons s init' ih =>
    cases init' with
    | nil => rfl
    | cons s' init'' =>
      have h2 := ih (by simp)
      calc joinSegs ((s :: s' :: init'') ++ [last])
          = s ++ '/' :: joinSegs ((s' :: init'') ++ [last]) := rfl
        _ = s ++ '/' :: (joinSegs (s' :: init'') ++ '/' :: last) := by rw [h2]
        _ = (s ++ '/' :: joinSegs (s' :: init'')) ++ '/' :: last := by
              rw [List.append_assoc, List.cons_append]
        _ = joinSegs (s :: s' :: init'') ++ '/' :: last := rfl

theorem rstripSeg_joinSegs {init : List (List Char)} (hne : init ≠ []) {last : List Char}
    (hlast : '/' ∉ last) : rstripSeg (joinSegs (init ++ [last])) = joinSegs init := by
  rw [joinSegs_concat hne last]
  exact rstripSeg_append hlast

/-- The `while` loop of `url_relative`, expressed on segments: with enough
fuel and enough segments, it strips one trailing segment per leading
`"../"` and returns the remaining reference. -/
theorem url_rel_loopF_segments :
    ∀ (fuel : Nat) (r : List Char) (segs : List (List Char)), r.length ≤ fuel →
      (∀ s ∈ segs, '/' ∉ s) → leadingUps r + 1 ≤ segs.length →
      url_rel_loopF fuel (joinSegs segs) r =
        (joinSegs (segs.take (segs.length - leadingUps r)), stripUps r) := by
  intro fuel
  induction fuel with
  | zero =>
    intro r segs hr _ _
    have : r = [] := List.eq_nil_of_length_eq_zero (Nat.le_zero.mp hr)
    subst this
    simp [url_rel_loopF, leadingUps, stripUps]
  | succ fuel ih =>
    intro r segs hr hsl hlen
    cases hp : ('.' :: '.' :: '/' :: []).isPrefixOf r with
    | false =>
      rw [leadingUps_nomatch hp] at hlen ⊢
      rw [stripUps_nomatch hp]
      simp [url_rel_loopF, hp]
    | true =>
      obtain ⟨t, ht⟩ := List.isPrefixOf_iff_prefix.mp hp
      have hteq : r = '.' :: '.' :: '/' :: t := by rw [← ht]; rfl
      subst hteq
      have hups : leadingUps ('.' :: '.' :: '/' :: t) = leadingUps t + 1 := rfl
      have hstrip : stripUps ('.' :: '.' :: '/' :: t) = stripUps t := rfl
      have hrlen : t.length + 3 ≤ fuel + 1 := by
        simpa [Nat.add_comm, Nat.add_left_comm] using hr
      rcases List.eq_nil_or_concat segs with rfl | ⟨init, last, hconcat⟩
      · rw [hups] at hlen; simp at hlen
      · rw [List.concat_eq_append] at hconcat
        subst hconcat
        have hlen' : leadingUps t + 2 ≤ init.length + 1 := by
          rw [hups] at hlen
          simpa [Nat.add_comm, Nat.add_left_comm] using hlen
        have hinit_ne : init ≠ [] := by
          intro h0
          rw [h0] at hlen'
          simp at hlen'
        have hlast : '/' ∉ last := hsl last (by simp)
        have hstep : url_rel_loopF (fuel + 1) (joinSegs (init ++ [last]))
            ('.' :: '.' :: '/' :: t) =
            url_rel_loopF fuel (rstripSeg (joinSegs (init ++ [last]))) t := by
          simp [url_rel_loopF, List.isPrefixOf]
        rw [hstep, rstripSeg_joinSegs hinit_ne hlast]
        have hrec := ih t init (by omega)
          (fun s hs => hsl s (List.mem_append_left _ hs))
          (by omega)
        rw [hrec, hups, hstrip]
        have hcount : init.length + 1 - (leadingUps t + 1) = init.length - leadingUps t := by
          omega
        have htake : (init ++ [last]).take (init.length - leadingUps t) =
            init.take (init.length - leadingUps t) := by
          rw [List.take_append_of_le_length (by omega)]
        simp only [List.length_append, List.length_cons, List.length_nil, hcount, htake]

/-- C5.  `url_relative(base, ref)` strips the final path segment of the
base, strips one further trailing segment per leading `"../"` of the
reference, and joins the remaining base with the remaining reference by a
single `'/'` — stated via segment lists (`mySplit`), for every base with
enough `'/'`-separated segments. -/
theorem url_relative_segments (u r : String)
    (h : leadingUps r.data + 2 ≤ (mySplit '/' u.data).length) :
    url_relative u r =
      ⟨joinSegs ((mySplit '/' u.data).take
          ((mySplit '/' u.data).length - 1 - leadingUps r.data)) ++
        '/' :: stripUps r.data⟩ := by
  have hjoin : joinSegs (mySplit '/' u.data) = u.data := joinSegs_mySplit u.data
  rcases List.eq_nil_or_concat (mySplit '/' u.data) with hnil | ⟨init, last, hconcat⟩
  · exact absurd hnil (mySplit_ne_nil '/' u.data)
  · rw [List.concat_eq_append] at hconcat
    have hinit_ne : init ≠ [] := by
      intro h0
      rw [hconcat, h0] at h
      simp only [List.nil_append, List.length_cons, List.length_nil] at h
      omega
    have hlast : '/' ∉ last := mySplit_noslash (hconcat ▸ (by simp : last ∈ init ++ [last]))
    have hstrip : rstripSeg u.data = joinSegs init := by
      rw [← hjoin, hconcat]
      exact rstripSeg_joinSegs hinit_ne hlast
    have hloop := url_rel_loopF_segments r.data.length r.data init le_rfl
      (fun s hs => mySplit_noslash (hconcat ▸ List.mem_append_left _ hs))
      (by rw [hconcat] at h; simp only [List.length_append, List.length_cons, List.length_nil] at h; omega)
    unfold url_relative
    rw [hstrip, hloop]
    have hcount : (mySplit '/' u.data).length - 1 - leadingUps r.data =
        init.length - leadingUps r.data := by
      rw [hconcat]; simp only [List.length_append, List.length_cons, List.length_nil]; omega
    have htake : (mySplit '/' u.data).take (init.length - leadingUps r.data) =
        init.take (init.length - leadingUps r.data) := by
      rw [hconcat, List.take_append_of_le_length (by omega)]
    rw [hcount, htake]

/-- C5 witness: the two concrete resolutions given in the claim. -/
theorem url_relative_segments_witness :
    url_relative "https://a/b/c/style.css" "../img/x.png" = "https://a/b/img/x.png" ∧
    url_relative "https://a/b/c.css" "d.png" = "https://a/b/d.png" := by
  constructor
  · rw [url_relative_segments "https://a/b/c/style.css" "../img/x.png" (by decide)]
    decide
  · rw [url_relative_segments "https://a/b/c.css" "d.png" (by decide)]
    decide

/-! ## C4/C7: the Source Scanner -/

instance {ε α : Type} [DecidableEq ε] [DecidableEq α] : DecidableEq (Except ε α) := fun x y =>
  match x, y with
  | .ok a, .ok b =>
    if h : a = b then isTrue (by rw [h]) else isFalse (by simp [h])
  | .error a, .error b =>
    if h : a = b then isTrue (by rw [h]) else isFalse (by simp [h])
  | .ok _, .error _ => isFalse (by simp)
  | .error _, .ok _ => isFalse (by simp)

theorem find?_map_insert {m : Dict} {k : String} (v : String)
    (hmem : m.any (fun p => p.1 == k) = true) :
    (m.map (fun p => if p.1 == k then (k, v) else p)).find? (fun p => p.1 == k) =
      some (k, v) := by
  induction m with
  | nil => simp at hmem
  | cons p rest ih =>
    by_cases hp : (p.1 == k) = true
    · rw [List.map_cons, if_pos hp]
      exact List.find?_cons_of_pos _ (by simp)
    · have hrest : rest.any (fun q => q.1 == k) = true := by
        rcases List.any_eq_true.mp hmem with ⟨x, hx, hpx⟩
        rcases List.mem_cons.mp hx with rfl | hx'
        · exact absurd hpx hp
        · exact List.any_eq_true.mpr ⟨x, hx', hpx⟩
      rw [List.map_cons, if_neg hp, List.find?_cons_of_neg _ (by simpa using hp)]
      exact ih hrest

theorem find?_append_fresh {m : Dict} {k : String}
    (hmem : m.any (fun p => p.1 == k) = false) (v : String) :
    (m ++ [(k, v)]).find? (fun p => p.1 == k) = some (k, v) := by
  induction m with
  | nil => exact List.find?_cons_of_pos _ (by simp)
  | cons p rest ih =>
    simp only [List.any_cons, Bool.or_eq_false_iff] at hmem
    rw [List.cons_append, List.find?_cons_of_neg _ (by simp [hmem.1])]
    exact ih hmem.2

/-- Looking up a just-inserted key returns the just-inserted value. -/
theorem dictFind_insert (m : Dict) (k v : String) :
    dictFind (dictInsert m k v) k = some v := by
  unfold dictFind dictInsert
  by_cases hmem : m.any (fun p => p.1 == k) = true
  · rw [if_pos hmem, find?_map_insert v hmem]
    rfl
  · rw [if_neg hmem, find?_append_fresh (Bool.not_eq_true _ ▸ hmem) v]
    rfl

/-- C4.  When a line has a quoted `https://` URL (leftmost `URL_RE` match
with whole-match span `[b, e)`) and is not an interactive-transcript line,
and `url_to_name` succeeds on the quoted text, `local_https` records
`url → name` in the URL Mapping and rewrites exactly the URL span between
the quotes to `PLACEHOLDER ++ "/" ++ name`, keeping both original quote
characters and the rest of the line. -/
theorem local_https_rewrites (m : Dict) (line : String) (b e : Nat)
    (hsearch : url_re_search line = some (b, e))
    (htr : (pyStartsWith (pyStrip line) ">>>" || pyStartsWith (pyStrip line) "...") = false)
    (name : String)
    (hname : url_to_name ⟨pySlice line.data (b + 1) (e - 1)⟩ = .ok name) :
    local_https m line = .ok
      (dictInsert m ⟨pySlice line.data (b + 1) (e - 1)⟩ name,
       ⟨pySlice line.data 0 (b + 1) ++ (PLACEHOLDER ++ "/" ++ name).data ++
         line.data.drop (e - 1)⟩) ∧
    dictFind (dictInsert m ⟨pySlice line.data (b + 1) (e - 1)⟩ name)
      ⟨pySlice line.data (b + 1) (e - 1)⟩ = some name := by
  constructor
  · unfold local_https
    rw [hsearch]
    simp only [htr, Bool.false_eq_true, if_false, hname]
  · exact dictFind_insert m _ name

/-- C4 witness: the claim's scenario line, with the real SHA-1 name. -/
theorem local_https_rewrites_witness :
    local_https [] "x = \"https://cdn.example/lib.js\"\n" = .ok
      ([("https://cdn.example/lib.js", "4e8993c7cf16c91940728525425f758ab6ad96f8.js")],
       "x = \"__mystery://placeholder__/4e8993c7cf16c91940728525425f758ab6ad96f8.js\"\n") ∧
    dictFind [("https://cdn.example/lib.js", "4e8993c7cf16c91940728525425f758ab6ad96f8.js")]
      "https://cdn.example/lib.js" = some "4e8993c7cf16c91940728525425f758ab6ad96f8.js" :=
  local_https_rewrites [] "x = \"https://cdn.example/lib.js\"\n" 4 32 (by decide) (by decide)
    "4e8993c7cf16c91940728525425f758ab6ad96f8.js" (by decide)

/-- A line with no `URL_RE` match is returned unchanged. -/
theorem local_https_no_match {m : Dict} {line : String}
    (h : url_re_search line = none) : local_https m line = .ok (m, line) := by
  unfold local_https
  rw [h]

/-- C7.  Re-running the Source Scanner on an already-rewritten file — one
containing the placeholder and no quoted `https://` URL on any line —
changes no line and leaves the map untouched, and since no line changed
the file is not written back (the write flag is `false`). -/
theorem process_py_rewritten_file_untouched (m : Dict) (lines : List String)
    (_hph : lines.any (fun l => hasSub PLACEHOLDER.data l.data) = true)
    (hno : ∀ l ∈ lines, url_re_search l = none) :
    process_py_file m lines = .ok (m, lines, false) := by
  have hscan : ∀ (m' : Dict) (ls : List String), (∀ l ∈ ls, url_re_search l = none) →
      scan_lines m' ls = .ok (m', ls) := by
    intro m' ls
    induction ls with
    | nil => intro _; rfl
    | cons l ls ih =>
      intro hn
      unfold scan_lines
      rw [local_https_no_match (hn l (List.mem_cons_self l ls))]
      show Except.map (fun p => (p.1, l :: p.2)) (scan_lines m' ls) = .ok (m', l :: ls)
      rw [ih (fun x hx => hn x (List.mem_cons_of_mem l hx))]
      rfl
  unfold process_py_file
  rw [hscan m lines hno]
  simp [Except.map, bne_self_eq_false]

/-- C7 witness: a concrete already-rewritten line. -/
theorem process_py_rewritten_file_untouched_witness :
    process_py_file [] ["x = \"__mystery://placeholder__/abc.js\"\n"] =
      .ok ([], ["x = \"__mystery://placeholder__/abc.js\"\n"], false) :=
  process_py_rewritten_file_untouched [] ["x = \"__mystery://placeholder__/abc.js\"\n"]
    (by decide) (by decide)

/-! ## C8: the `replace` pass -/

/-- C8 (amended).  A file whose text contains no occurrence of the
placeholder marker is left unmodified and is not rewritten. -/
theorem replace_file_no_placeholder ( url_prefix buf : String)
    (h : hasSub PLACEHOLDER.data buf.data = false) :
    replace_file url_prefix buf = (buf, false) := by
  unfold replace_file
  simp [h]

/-- C8 witness: a concrete placeholder-free file is untouched. -/
theorem replace_file_no_placeholder_witness :
    replace_file "https://local_cdn/base/" "body { color: red }" =
      ("body { color: red }", false) :=
  replace_file_no_placeholder "https://local_cdn/base/" "body { color: red }" (by decide)

/-- C8, claim as stated, refuted: with the empty prefix used for CSS files,
the input consisting of two placeholders followed by `"//"` still contains
the placeholder after a first `replace` run (so the second run does find
an occurrence), and the second run changes the text again (to the empty
string) — `replace` is not idempotent on every file. -/
theorem replace_file_counterexample :
    (replace_file "" ⟨PLACEHOLDER.data ++ PLACEHOLDER.data ++ '/' :: '/' :: []⟩).1 =
      PLACEHOLDER ++ "/" ∧
    hasSub PLACEHOLDER.data (PLACEHOLDER ++ "/").data = true ∧
    (replace_file "" (PLACEHOLDER ++ "/")).1 = "" ∧
    (replace_file "" (PLACEHOLDER ++ "/")).1 ≠ (PLACEHOLDER ++ "/" : String) := by
  refine ⟨by decide, by decide, by decide, by decide⟩

/-! ## C6: `download_from_css` is a single pass over a snapshot -/

theorem except_map_ok {ε α β : Type} {f : α → β} {x : Except ε α} {b : β}
    (h : x.map f = .ok b) : ∃ a, x = .ok a ∧ b = f a := by
  cases x with
  | error e => simp [Except.map] at h
  | ok a =>
    simp only [Except.map, Except.ok.injEq] at h
    exact ⟨a, rfl, h.symm⟩

theorem css_action_reads {fetch : String → String} {st : CssSt} {u2s : String}
    {st' : CssSt} {n : String} (h : css_action fetch st u2s = .ok (st', n)) :
    st'.reads = st.reads := by
  unfold css_action at h
  split at h
  · split at h
    · exact absurd h (by simp)
    · cases h; rfl
  · split at h
    · exact absurd h (by simp)
    · cases h
      split <;> rfl

theorem css_step_reads {fetch : String → String} {old_u : String} {st : CssSt}
    {text : String} {matched : Bool} {sp : Nat × Nat} {st' : CssSt} {text' : String}
    {m' : Bool} (h : css_step fetch old_u st text matched sp = .ok (st', text', m')) :
    st'.reads = st.reads := by
  unfold css_step at h
  split at h
  · cases h; rfl
  · obtain ⟨⟨st1, n⟩, hp, hb⟩ := except_map_ok h
    cases hb
    exact css_action_reads hp

theorem css_matches_reads {fetch : String → String} {old_u : String} :
    ∀ {sps : List (Nat × Nat)} {st : CssSt} {text : String} {matched : Bool}
      {st' : CssSt} {text' : String} {m' : Bool},
      css_matches fetch old_u sps st text matched = .ok (st', text', m') →
      st'.reads = st.reads := by
  intro sps
  induction sps with
  | nil => intro st text matched st' text' m' h; cases h; rfl
  | cons sp sps ih =>
    intro st text matched st' text' m' h
    unfold css_matches at h
    cases hs : css_step fetch old_u st text matched sp with
    | error e => rw [hs] at h; exact absurd h (by simp)
    | ok trip =>
      obtain ⟨st1, text1, m1⟩ := trip
      rw [hs] at h
      rw [ih h, css_step_reads hs]

theorem css_file_reads {fetch : String → String} {old_u name : String} {st st' : CssSt}
    (h : css_file fetch old_u name st = .ok st') :
    st'.reads = st.reads ++ (if pyEndsWith name ".css" then [name] else []) := by
  unfold css_file at h
  split at h
  · rename_i hcss
    split at h
    · exact absurd h (by simp)
    · rename_i text hfind
      split at h
      · exact absurd h (by simp)
      · rename_i st1 text1 m1 hm
        cases h
        have hr := css_matches_reads hm
        rw [if_pos hcss]
        cases m1 <;> simpa using hr
  · rename_i hcss
    cases h
    simp [hcss]

theorem dfc_go_reads (fetch : String → String) :
    ∀ (snap : Dict) (st st' : CssSt), dfc_go fetch snap st = .ok st' →
      st'.reads = st.reads ++
        ((snap.filter (fun p => pyEndsWith p.2 ".css")).map Prod.snd) := by
  intro snap
  induction snap with
  | nil => intro st st' h; cases h; simp
  | cons p rest ih =>
    intro st st' h
    obtain ⟨old_u, name⟩ := p
    unfold dfc_go at h
    cases hf : css_file fetch old_u name st with
    | error e => rw [hf] at h; exact absurd h (by simp)
    | ok st1 =>
      rw [hf] at h
      rw [ih st1 st' h, css_file_reads hf]
      by_cases hcss : pyEndsWith name ".css" = true <;>
        simp [hcss, List.append_assoc]

/-- C6.  The pass reads (scans) exactly the files of the entries whose
local name ends in `.css` in the URL Mapping SNAPSHOT taken when
`download_from_css` starts; entries added to the map while the pass runs
(e.g. a freshly downloaded nested CSS file) are never read in the same
pass. -/
theorem download_from_css_single_pass (fetch : String → String) (st st' : CssSt)
    (h : download_from_css fetch st = .ok st') :
    st'.reads = st.reads ++
      ((st.url_map.filter (fun p => pyEndsWith p.2 ".css")).map Prod.snd) :=
  dfc_go_reads fetch st.url_map st st' h

/-- The network oracle used by concrete runs below. -/
def cssFetch : String → String := fun u => "FETCH:" ++ u

/-- A run whose single CSS file references a nested stylesheet. -/
def nestedCssSt : CssSt :=
  ⟨[("https://h/leaflet.css", "leaflet.css")], none, [],
   [("leaflet.css", "url(extra.css)")], []⟩

/-- C6 witness: the nested stylesheet `https://h/extra.css` is downloaded
and registered as a new `.css` mapping entry during the pass, yet the only
file read is the snapshot's `leaflet.css`. -/
theorem download_from_css_single_pass_witness :
    (download_from_css cssFetch nestedCssSt).map (fun s => s.reads) =
      .ok ["leaflet.css"] ∧
    (download_from_css cssFetch nestedCssSt).map
      (fun s => s.url_map.any
        (fun p => pyEndsWith p.2 ".css" && !(dictMem nestedCssSt.url_map p.1))) =
      .ok true := by
  constructor
  · have hok : (download_from_css cssFetch nestedCssSt).isOk = true := by decide
    cases h : download_from_css cssFetch nestedCssSt with
    | error e => rw [h] at hok; simp [Except.isOk, Except.toBool] at hok
    | ok st1 =>
      simp only [Except.map]
      rw [download_from_css_single_pass cssFetch nestedCssSt st1 h]
      decide
  · decide

/-! ## C1: the CSS rewrite uses a stale `name2` for already-mapped URLs -/

/-- A state whose single CSS file's only `url()` reference resolves to a
URL already present in the URL Mapping. -/
def cssCrashSt : CssSt :=
  ⟨[("https://h/a.css", "a.css"), ("https://h/b.png", "bname.png")], none, [],
   [("a.css", "url(b.png)")], []⟩

/-- Like `cssCrashSt`, but with a second (new) reference after the
already-mapped one; matches are processed in reverse, so the new
reference binds `name2` first. -/
def cssStaleSt : CssSt :=
  ⟨[("https://h/a.css", "a.css"), ("https://h/b.png", "bname.png")], none, [],
   [("a.css", "url(b.png) url(c.png)")], []⟩

/-- C1 refuted by evaluation (code bug).  `name2` is only assigned in the
`u2 not in self.url_map` branch, yet line 221 always splices `name2`:

* when the FIRST processed match resolves to an already-mapped URL, the
  run crashes with a `NameError` (`name2` unbound) instead of rewriting;
* otherwise the span of an already-mapped URL is rewritten with the STALE
  name of the previously processed match — here both spans of `a.css`
  receive the hash name of `https://h/c.png`, and the name prescribed by
  the claim for the `b.png` match (`url_to_name "https://h/b.png"`, i.e.
  its own resolved URL's name) appears nowhere in the output. -/
theorem css_rewrite_stale_name :
    download_from_css cssFetch cssCrashSt =
      .error "NameError: name 'name2' is not defined" ∧
    (download_from_css cssFetch cssStaleSt).map (fun s => dictFind s.files "a.css") =
      .ok (some ("url(" ++ PLACEHOLDER ++ "/" ++ sha1_hex "https://h/c.png" ++
        ".png) url(" ++ PLACEHOLDER ++ "/" ++ sha1_hex "https://h/c.png" ++ ".png)")) ∧
    (download_from_css cssFetch cssStaleSt).map (fun s =>
        (dictFind s.files "a.css").map (fun t =>
          hasSub ("/" ++ sha1_hex "https://h/b.png" ++ ".png").data t.data)) =
      .ok (some false) := by
  refine ⟨by decide, by decide, by decide⟩

/-! ## C10: every URL-map entry satisfies `value = url_to_name key` -/

/-- One map entry is hash-consistent. -/
def entryOk (p : String × String) : Bool :=
  match url_to_name p.1 with
  | .ok v => v == p.2
  | .error _ => false

/-- The URL Mapping invariant: every entry's value is `url_to_name` of its
key. -/
def MapOkB (m : Dict) : Bool := m.all entryOk

theorem entryOk_of_ok {k v : String} (h : url_to_name k = .ok v) :
    entryOk (k, v) = true := by
  simp [entryOk, h]

theorem mapOkB_insert {m : Dict} {k v : String} (hm : MapOkB m = true)
    (hkv : url_to_name k = .ok v) : MapOkB (dictInsert m k v) = true := by
  unfold MapOkB dictInsert
  unfold MapOkB at hm
  rw [List.all_eq_true] at hm
  split
  · rw [List.all_eq_true]
    intro p hp
    obtain ⟨q, hq, hfq⟩ := List.mem_map.mp hp
    by_cases hqk : (q.1 == k) = true
    · rw [if_pos hqk] at hfq
      rw [← hfq]
      exact entryOk_of_ok hkv
    · rw [if_neg hqk] at hfq
      rw [← hfq]
      exact hm q hq
  · rw [List.all_eq_true]
    intro p hp
    rcases List.mem_append.mp hp with hin | hone
    · exact hm p hin
    · rw [List.mem_singleton.mp hone]
      exact entryOk_of_ok hkv

/-- The Source Scanner preserves the invariant. -/
theorem local_https_mapOk {m : Dict} {line : String} {m' : Dict} {line' : String}
    (hm : MapOkB m = true) (h : local_https m line = .ok (m', line')) :
    MapOkB m' = true := by
  unfold local_https at h
  split at h
  · cases h; exact hm
  · split at h
    · cases h; exact hm
    · split at h
      · exact absurd h (by simp)
      · rename_i name hname
        cases h
        exact mapOkB_insert hm hname

/-- Any sufficient fuel computes `replaceCore`. -/
theorem replaceCoreF_fuel {pat rep : List Char} :
    ∀ (fuel : Nat) (l : List Char), l.length ≤ fuel →
      replaceCoreF pat rep fuel l = replaceCoreF pat rep l.length l := by
  intro fuel
  induction fuel using Nat.strong_induction_on with
  | _ fuel ih =>
    intro l hl
    cases fuel with
    | zero =>
      have : l = [] := List.eq_nil_of_length_eq_zero (Nat.le_zero.mp hl)
      subst this
      rfl
    | succ fuel =>
      cases l with
      | nil => rfl
      | cons c rest =>
        have hl' : rest.length + 1 ≤ fuel + 1 := by
          simpa using hl
        simp only [List.length_cons, replaceCoreF]
        split
        · rename_i hcond
          have hplen : 0 < pat.length := List.length_pos.mpr hcond.1
          have hple : pat.length ≤ rest.length + 1 :=
            (List.isPrefixOf_iff_prefix.mp hcond.2).length_le
          have hdl : ((c :: rest).drop pat.length).length = rest.length + 1 - pat.length := by
            simp
          have h1 := ih fuel (by omega) ((c :: rest).drop pat.length) (by omega)
          have h2 := ih rest.length (by omega) ((c :: rest).drop pat.length) (by omega)
          rw [h1, h2]
        · have h1 := ih fuel (by omega) rest (by omega)
          have h2 := ih rest.length (by omega) rest le_rfl
          rw [h1, h2]

theorem replaceCore_eq_fuel {pat rep : List Char} {fuel : Nat} {l : List Char}
    (h : l.length ≤ fuel) : replaceCoreF pat rep fuel l = replaceCore pat rep l :=
  replaceCoreF_fuel fuel l h

theorem replaceCore_nil (pat rep : List Char) : replaceCore pat rep [] = [] := rfl

/-- Canonical step equations for `replaceCore`. -/
theorem replaceCore_cons_pos {pat rep : List Char} {c : Char} {l : List Char}
    (h : pat ≠ [] ∧ pat.isPrefixOf (c :: l) = true) :
    replaceCore pat rep (c :: l) = rep ++ replaceCore pat rep ((c :: l).drop pat.length) := by
  have hplen : 0 < pat.length := List.length_pos.mpr h.1
  show replaceCoreF pat rep (l.length + 1) (c :: l) = _
  simp only [replaceCoreF]
  rw [if_pos h]
  congr 1
  exact replaceCoreF_fuel l.length _ (by simp only [List.length_drop, List.length_cons]; omega)

theorem replaceCore_cons_neg {pat rep : List Char} {c : Char} {l : List Char}
    (h : ¬(pat ≠ [] ∧ pat.isPrefixOf (c :: l) = true)) :
    replaceCore pat rep (c :: l) = c :: replaceCore pat rep l := by
  show replaceCoreF pat rep (l.length + 1) (c :: l) = _
  simp only [replaceCoreF]
  rw [if_neg h]
  rfl

/-- A pattern without `'/'` matches across a `'/'` boundary exactly when it
matches before it. -/
theorem isPrefixOf_append_slash {b : List Char} :
    ∀ (a pat : List Char), '/' ∉ pat →
      pat.isPrefixOf (a ++ '/' :: b) = pat.isPrefixOf a := by
  intro a
  induction a with
  | nil =>
    intro pat hns
    cases pat with
    | nil => rfl
    | cons p ps =>
      have hp : (p == '/') = false := by
        simp only [beq_eq_false_iff_ne, ne_eq]
        intro h
        exact hns (h ▸ List.mem_cons_self p ps)
      show (p == '/' && ps.isPrefixOf b) = false
      rw [hp]
      rfl
  | cons c a2 ih =>
    intro pat hns
    cases pat with
    | nil => rfl
    | cons p ps =>
      have hns' : '/' ∉ ps := fun h => hns (List.mem_cons_of_mem p h)
      show (p == c && ps.isPrefixOf (a2 ++ '/' :: b)) = (p == c && ps.isPrefixOf a2)
      rw [ih ps hns']

theorem replaceCore_slash_cons {pat rep : List Char} (hne : pat ≠ []) (hns : '/' ∉ pat)
    (b : List Char) :
    replaceCore pat rep ('/' :: b) = '/' :: replaceCore pat rep b := by
  apply replaceCore_cons_neg
  rintro ⟨-, hpre⟩
  obtain ⟨p, ps, rfl⟩ : ∃ p ps, pat = p :: ps := by
    cases pat with
    | nil => exact absurd rfl hne
    | cons p ps => exact ⟨p, ps, rfl⟩
  have hp : (p == '/') = false := by
    simp only [beq_eq_false_iff_ne, ne_eq]
    intro h
    exact hns (h ▸ List.mem_cons_self p ps)
  have : (p == '/' && ps.isPrefixOf b) = true := hpre
  rw [hp] at this
  exact Bool.noConfusion this

/-- Replacement of a slash-free pattern distributes over a `'/'`. -/
theorem replaceCore_append_slash {pat rep : List Char} (hne : pat ≠ []) (hns : '/' ∉ pat) :
    ∀ (a b : List Char), replaceCore pat rep (a ++ '/' :: b) =
      replaceCore pat rep a ++ '/' :: replaceCore pat rep b := by
  have main : ∀ (n : Nat) (a b : List Char), a.length ≤ n →
      replaceCore pat rep (a ++ '/' :: b) =
        replaceCore pat rep a ++ '/' :: replaceCore pat rep b := by
    intro n
    induction n with
    | zero =>
      intro a b ha
      have ha0 : a = [] := List.eq_nil_of_length_eq_zero (Nat.le_zero.mp ha)
      subst ha0
      simpa [replaceCore_nil] using replaceCore_slash_cons hne hns b
    | succ n ihn =>
      intro a b ha
      cases a with
      | nil => simpa [replaceCore_nil] using replaceCore_slash_cons hne hns b
      | cons c a2 =>
        have ha2 : a2.length ≤ n := by simpa using ha
        have hplen : 0 < pat.length := List.length_pos.mpr hne
        rw [List.cons_append]
        cases hpc : pat.isPrefixOf (c :: a2) with
        | true =>
          have hpre : pat.isPrefixOf (c :: (a2 ++ '/' :: b)) = true := by
            rw [← List.cons_append, isPrefixOf_append_slash _ pat hns]
            exact hpc
          have hple : pat.length ≤ a2.length + 1 := by
            simpa using (List.isPrefixOf_iff_prefix.mp hpc).length_le
          rw [replaceCore_cons_pos ⟨hne, hpre⟩, replaceCore_cons_pos ⟨hne, hpc⟩]
          have hdrop : (c :: (a2 ++ '/' :: b)).drop pat.length =
              ((c :: a2).drop pat.length) ++ '/' :: b := by
            rw [← List.cons_append,
              List.drop_append_of_le_length (by simpa using hple)]
          rw [hdrop, ihn _ b (by simp only [List.length_drop, List.length_cons]; omega)]
          rw [List.append_assoc]
        | false =>
          have hpre : pat.isPrefixOf (c :: (a2 ++ '/' :: b)) = false := by
            rw [← List.cons_append, isPrefixOf_append_slash _ pat hns]
            exact hpc
          rw [replaceCore_cons_neg (by simp [hpre]), replaceCore_cons_neg (by simp [hpc])]
          rw [ihn a2 b ha2]
          rfl
  intro a b
  exact main a.length a b le_rfl

/-- Replacing the pattern itself yields the replacement. -/
theorem replaceCore_self {pat rep : List Char} (hne : pat ≠ []) :
    replaceCore pat rep pat = rep := by
  obtain ⟨p, ps, rfl⟩ : ∃ p ps, pat = p :: ps := by
    cases pat with
    | nil => exact absurd rfl hne
    | cons p ps => exact ⟨p, ps, rfl⟩
  rw [replaceCore_cons_pos ⟨hne, List.isPrefixOf_iff_prefix.mpr (List.prefix_refl _)⟩]
  rw [List.drop_length, replaceCore_nil, List.append_nil]

/-! ### The digest always has 40 hex characters -/

theorem length_flatMap_pair {α β : Type} (f g : α → β) (l : List α) :
    (l.flatMap (fun b => [f b, g b])).length = 2 * l.length := by
  induction l with
  | nil => rfl
  | cons x xs ih =>
    simp only [List.flatMap_cons, List.length_append, List.length_cons, List.length_nil, ih]
    omega

theorem length_sha1Digest (msg : List Nat) : (sha1Digest msg).length = 20 := by
  unfold sha1Digest
  obtain ⟨a, b, c, d, e⟩ := sha1Nat msg
  simp [wordBytes]

theorem length_sha1_hex (s : String) : (sha1_hex s).length = 40 := by
  show ((sha1Digest (utf8Bytes s)).flatMap fun b => [hexDigit (b / 16), hexDigit (b % 16)]).length = 40
  rw [length_flatMap_pair, length_sha1Digest]

/-! ### Replacing `marker-icon.png` by a sibling name commutes with
`url_to_name` -/

theorem strMk_data (s : String) : (⟨s.data⟩ : String) = s := by cases s; rfl

theorem startsHttps_data {v : String} (h : pyStartsWith v "https://" = true) :
    ∃ t, v.data = "https:".data ++ '/' :: '/' :: t := by
  obtain ⟨t, ht⟩ := List.isPrefixOf_iff_prefix.mp h
  refine ⟨t, ?_⟩
  rw [← ht]
  rfl

/-- Replacing the (slash-free) pattern in a URL that starts with the
`https` scheme leaves the scheme prefix intact. -/
theorem replaceCore_https {pat rep : List Char} (hne : pat ≠ []) (hns : '/' ∉ pat)
    (hh : replaceCore pat rep "https:".data = "https:".data) (t : List Char) :
    replaceCore pat rep ("https:".data ++ '/' :: '/' :: t) =
      "https:".data ++ '/' :: '/' :: replaceCore pat rep t := by
  rw [replaceCore_append_slash hne hns, replaceCore_slash_cons hne hns, hh]

/-- If `url_to_name` maps a URL to the primary marker icon name, then
substituting a sibling well-known name for `marker-icon.png` throughout
the URL yields a URL that `url_to_name` maps to that sibling name. -/
theorem url_to_name_marker_sibling {u2s also : String}
    (halso : also ∈ wellKnown) (hns : '/' ∉ also.data)
    (h : url_to_name u2s = .ok "marker-icon.png") :
    url_to_name (pyReplace u2s "marker-icon.png" also) = .ok also := by
  have hpat_ne : ("marker-icon.png" : String).data ≠ [] := by decide
  have hpat_ns : '/' ∉ ("marker-icon.png" : String).data := by decide
  have hhttps : replaceCore "marker-icon.png".data also.data "https:".data =
      "https:".data := rfl
  -- the scheme check passed for `u2s`
  have hok : (url_to_name u2s).isOk = true := by rw [h]; rfl
  have hv : pyStartsWith (pyNormalize u2s) "https://" = true := by
    cases hsv : pyStartsWith (pyNormalize u2s) "https://" with
    | true => rfl
    | false =>
      rw [(url_to_name_error_iff.1 u2s).mpr hsv] at hok
      exact Bool.noConfusion hok
  -- the well-known branch was taken (a hash name has 40+ characters)
  have hw : endsWellKnown (pyNormalize u2s) = true := by
    cases hwv : endsWellKnown (pyNormalize u2s) with
    | true => rfl
    | false =>
      have hh := (h.symm.trans (url_to_name_hash_branch hv hwv))
      have hlen := congrArg String.length (Except.ok.inj hh)
      rw [String.length_append, length_sha1_hex] at hlen
      have h15 : ("marker-icon.png" : String).length = 15 := rfl
      omega
  -- the final path segment of the normalized URL is exactly the pattern
  have hmem : '/' ∈ (pyNormalize u2s).data := startsHttps_mem_slash hv
  obtain ⟨pr, hsplit⟩ := Option.isSome_iff_exists.mp (splitAtLast_isSome hmem)
  obtain ⟨aa, bb⟩ := pr
  obtain ⟨hdecomp, hnb⟩ := splitAtLast_eq_some hsplit
  have hget : (afterLastSlash (pyNormalize u2s).data).getD [] = bb := by
    simp [afterLastSlash, hsplit]
  have hbb : bb = "marker-icon.png".data := by
    have h1 := Except.ok.inj (h.symm.trans (url_to_name_wellKnown_branch hv hw))
    rw [hget] at h1
    exact (congrArg String.data h1).symm
  -- normalization commutes with the replacement
  have hnorm : (pyNormalize (pyReplace u2s "marker-icon.png" also)).data =
      replaceCore "marker-icon.png".data also.data (pyNormalize u2s).data := by
    by_cases hpp : pyStartsWith u2s "//" = true
    · obtain ⟨t, ht⟩ : ∃ t, u2s.data = '/' :: '/' :: t := by
        obtain ⟨t, ht⟩ := List.isPrefixOf_iff_prefix.mp hpp
        exact ⟨t, by rw [← ht]; rfl⟩
      have hnu : pyNormalize u2s = "https:" ++ u2s := by
        simp [pyNormalize, hpp]
      have hrdata : (pyReplace u2s "marker-icon.png" also).data =
          '/' :: '/' :: replaceCore "marker-icon.png".data also.data t := by
        show replaceCore "marker-icon.png".data also.data u2s.data = _
        rw [ht, replaceCore_slash_cons hpat_ne hpat_ns,
          replaceCore_slash_cons hpat_ne hpat_ns]
      have hpp2 : pyStartsWith (pyReplace u2s "marker-icon.png" also) "//" = true := by
        unfold pyStartsWith
        rw [hrdata]
        have hsplit2 : '/' :: '/' :: replaceCore "marker-icon.png".data also.data t =
            "//".data ++ replaceCore "marker-icon.png".data also.data t := rfl
        rw [hsplit2]
        exact List.isPrefixOf_iff_prefix.mpr (List.prefix_append _ _)
      have hnu2 : pyNormalize (pyReplace u2s "marker-icon.png" also) =
          "https:" ++ pyReplace u2s "marker-icon.png" also := by
        simp [pyNormalize, hpp2]
      rw [hnu2, strData_append, hrdata, hnu, strData_append, ht,
        replaceCore_https hpat_ne hpat_ns hhttps]
    · have hnu : pyNormalize u2s = u2s := by
        simp [pyNormalize, hpp]
      obtain ⟨t, ht⟩ := startsHttps_data (v := u2s) (by rw [← hnu]; exact hv)
      have hrdata : (pyReplace u2s "marker-icon.png" also).data =
          "https:".data ++ '/' :: '/' ::
            replaceCore "marker-icon.png".data also.data t := by
        show replaceCore "marker-icon.png".data also.data u2s.data = _
        rw [ht, replaceCore_https hpat_ne hpat_ns hhttps]
      have hpp2 : pyStartsWith (pyReplace u2s "marker-icon.png" also) "//" = false := by
        unfold pyStartsWith
        rw [hrdata]
        rfl
      have hnu2 : pyNormalize (pyReplace u2s "marker-icon.png" also) =
          pyReplace u2s "marker-icon.png" also := by
        simp [pyNormalize, hpp2]
      rw [hnu2, hnu]
      rfl
  -- the replaced, normalized URL: scheme intact, last segment `also`
  have hrepl : (pyNormalize (pyReplace u2s "marker-icon.png" also)).data =
      replaceCore "marker-icon.png".data also.data aa ++ '/' :: also.data := by
    rw [hnorm, hdecomp, hbb, replaceCore_append_slash hpat_ne hpat_ns,
      replaceCore_self hpat_ne]
  obtain ⟨s, hs⟩ := startsHttps_data hv
  have hv2 : pyStartsWith (pyNormalize (pyReplace u2s "marker-icon.png" also))
      "https://" = true := by
    unfold pyStartsWith
    rw [hnorm, hs, replaceCore_https hpat_ne hpat_ns hhttps]
    have : "https:".data ++ '/' :: '/' ::
        replaceCore "marker-icon.png".data also.data s =
        "https://".data ++ replaceCore "marker-icon.png".data also.data s := rfl
    rw [this]
    exact List.isPrefixOf_iff_prefix.mpr (List.prefix_append _ _)
  have hw2 : endsWellKnown (pyNormalize (pyReplace u2s "marker-icon.png" also)) = true := by
    unfold endsWellKnown
    refine List.any_eq_true.mpr ⟨also, halso, ?_⟩
    unfold pyEndsWith
    rw [hrepl]
    refine List.isSuffixOf_iff_suffix.mpr ?_
    have : replaceCore "marker-icon.png".data also.data aa ++ '/' :: also.data =
        (replaceCore "marker-icon.png".data also.data aa ++ ['/']) ++ also.data := by
      rw [List.append_assoc]
      rfl
    rw [this]
    exact List.suffix_append _ _
  have hfinal := url_to_name_wellKnown_branch hv2 hw2
  rw [hfinal]
  have hafter : afterLastSlash
      (pyNormalize (pyReplace u2s "marker-icon.png" also)).data = some also.data := by
    rw [hrepl]
    exact afterLastSlash_append hns
  rw [hafter]
  show Except.ok (⟨also.data⟩ : String) = _
  rw [strMk_data]

/-! ### The invariant is preserved by every CSS-rewriter insertion -/

theorem css_action_mapOk {fetch : String → String} {st : CssSt} {u2s : String}
    {st' : CssSt} {n : String} (hm : MapOkB st.url_map = true)
    (h : css_action fetch st u2s = .ok (st', n)) : MapOkB st'.url_map = true := by
  unfold css_action at h
  by_cases hmem : dictMem st.url_map u2s = true
  · rw [if_pos hmem] at h
    cases hn2 : st.name2 with
    | none => rw [hn2] at h; exact absurd h (by simp)
    | some n2 => rw [hn2] at h; cases h; exact hm
  · rw [if_neg hmem] at h
    cases hu : url_to_name u2s with
    | error e => rw [hu] at h; exact absurd h (by simp)
    | ok name2 =>
      rw [hu] at h
      injection h with hpair
      cases hpair
      by_cases hmark : (n == "marker-icon.png") = true
      · have hb : n = "marker-icon.png" := by simpa using hmark
        subst hb
        rw [if_pos hmark]
        exact mapOkB_insert
          (mapOkB_insert (mapOkB_insert hm hu)
            (url_to_name_marker_sibling (by decide) (by decide) hu))
          (url_to_name_marker_sibling (by decide) (by decide) hu)
      · rw [if_neg hmark]
        exact mapOkB_insert hm hu

theorem css_step_mapOk {fetch : String → String} {old_u : String} {st : CssSt}
    {text : String} {matched : Bool} {sp : Nat × Nat} {st' : CssSt} {text' : String}
    {m' : Bool} (hm : MapOkB st.url_map = true)
    (h : css_step fetch old_u st text matched sp = .ok (st', text', m')) :
    MapOkB st'.url_map = true := by
  unfold css_step at h
  split at h
  · cases h; exact hm
  · obtain ⟨⟨st1, n⟩, hp, hb⟩ := except_map_ok h
    cases hb
    exact css_action_mapOk hm hp

theorem css_matches_mapOk {fetch : String → String} {old_u : String} :
    ∀ {sps : List (Nat × Nat)} {st : CssSt} {text : String} {matched : Bool}
      {st' : CssSt} {text' : String} {m' : Bool},
      css_matches fetch old_u sps st text matched = .ok (st', text', m') →
      MapOkB st.url_map = true → MapOkB st'.url_map = true := by
  intro sps
  induction sps with
  | nil => intro st text matched st' text' m' h hm; cases h; exact hm
  | cons sp sps ih =>
    intro st text matched st' text' m' h hm
    unfold css_matches at h
    cases hs : css_step fetch old_u st text matched sp with
    | error e => rw [hs] at h; exact absurd h (by simp)
    | ok trip =>
      obtain ⟨st1, text1, m1⟩ := trip
      rw [hs] at h
      exact ih h (css_step_mapOk hm hs)

theorem css_file_mapOk {fetch : String → String} {old_u name : String} {st st' : CssSt}
    (hm : MapOkB st.url_map = true) (h : css_file fetch old_u name st = .ok st') :
    MapOkB st'.url_map = true := by
  unfold css_file at h
  split at h
  · split at h
    · exact absurd h (by simp)
    · rename_i text hfind
      split at h
      · exact absurd h (by simp)
      · rename_i st1 text1 m1 hmm
        cases h
        have h1 : MapOkB st1.url_map = true := css_matches_mapOk hmm hm
        cases m1 <;> simpa using h1
  · cases h; exact hm

theorem dfc_go_mapOk (fetch : String → String) :
    ∀ (snap : Dict) (st st' : CssSt), MapOkB st.url_map = true →
      dfc_go fetch snap st = .ok st' → MapOkB st'.url_map = true := by
  intro snap
  induction snap with
  | nil => intro st st' hm h; cases h; exact hm
  | cons p rest ih =>
    intro st st' hm h
    obtain ⟨old_u, name⟩ := p
    unfold dfc_go at h
    cases hf : css_file fetch old_u name st with
    | error e => rw [hf] at h; exact absurd h (by simp)
    | ok st1 =>
      rw [hf] at h
      exact ih st1 st' (css_file_mapOk hm hf) h

/-- C10.  The URL Mapping invariant: if every entry satisfies
`value = url_to_name key`, then it still does after the Source Scanner
records a scanned URL (`local_https`) and after the CSS Rewriter
registers resolved URLs and the two marker-icon sibling URLs
(`download_from_css`, covering both of its insertion sites). -/
theorem url_map_invariant :
    (∀ (m : Dict) (line : String) (m' : Dict) (line' : String),
        MapOkB m = true → local_https m line = .ok (m', line') → MapOkB m' = true) ∧
    (∀ (fetch : String → String) (st st' : CssSt),
        MapOkB st.url_map = true → download_from_css fetch st = .ok st' →
        MapOkB st'.url_map = true) :=
  ⟨fun _ _ _ _ hm h => local_https_mapOk hm h,
   fun fetch st st' hm h => dfc_go_mapOk fetch st.url_map st st' hm h⟩

/-- A run whose CSS references the primary marker icon, so that the pass
inserts the resolved URL and both sibling marker URLs. -/
def markerSt : CssSt :=
  ⟨[("https://h/leaflet.css", "leaflet.css")], none, [],
   [("leaflet.css", "url(images/marker-icon.png)")], []⟩

/-- C10 witness: after a pass that exercises all three CSS insertion sites
(the resolved URL and the two marker siblings), every map entry still
satisfies `value = url_to_name key`. -/
theorem url_map_invariant_witness :
    (download_from_css cssFetch markerSt).map (fun s => MapOkB s.url_map) = .ok true := by
  have hok : (download_from_css cssFetch markerSt).isOk = true := by decide
  cases h : download_from_css cssFetch markerSt with
  | error e => rw [h] at hok; simp [Except.isOk, Except.toBool] at hok
  | ok st1 =>
    simp only [Except.map]
    rw [url_map_invariant.2 cssFetch markerSt st1 (by decide) h]

end LocalFolium
